import Mathlib

/-!
Verification of the `trie-generic` prefix-tree library.

The definitions below are a shallow embedding of `src/trie.rs` (the
repository's most complete draft, implementing `TNode<T>` together with
`add`, `find`, `contains_key`, `longest_prefix`, `pp` and `remove`).
Keys are walked one Unicode code point at a time, so a Rust `&str` key is
embedded as a `List Char`. The `BTreeMap<char, TNode<T>>` of children is
embedded as an association list ordered by `insertA` (ordered insertion,
mirroring `BTreeMap`'s sorted iteration order). In-place mutation through
`&mut self` is embedded by returning the updated node. Rust panics are
embedded as `none` results of `Option`-valued functions.
-/

namespace TrieG

/-- The `TNode<'a, T>` enum of `src/trie.rs`: `Empty`, `Leaf { content,
is_terminal }`, or `Node { content, children, is_terminal }`. -/
inductive TNode (T : Type) where
  | empty : TNode T
  | leaf (content : Option T) (is_terminal : Bool) : TNode T
  | node (content : Option T) (children : List (Char × TNode T)) (is_terminal : Bool) : TNode T

/-- `TNode::is_terminal`. -/
def isTerminal {T : Type} : TNode T → Bool
  | .empty => false
  | .leaf _ it => it
  | .node _ _ it => it

/-- `TNode::is_childless`. -/
def isChildless {T : Type} : TNode T → Bool
  | .empty => true
  | .leaf _ _ => true
  | .node _ ch _ => ch.isEmpty

/-- Whether the node is the `Empty` variant. -/
def isEmptyNode {T : Type} : TNode T → Bool
  | .empty => true
  | _ => false

/-- `TNode::content`: panics (here `none`) on `Empty`, otherwise returns the
stored `Option<T>` payload. -/
def contentOf {T : Type} : TNode T → Option (Option T)
  | .empty => none
  | .leaf c _ => some c
  | .node c _ _ => some c

/-- `BTreeMap::get`: lookup in the children association list. -/
def lookupA {T : Type} (c : Char) : List (Char × TNode T) → Option (TNode T)
  | [] => none
  | (c', v) :: rest => if c = c' then some v else lookupA c rest

/-- `BTreeMap` insertion keeping keys in ascending order (replacing the
value when the key is present), mirroring the ordered map of the source. -/
def insertA {T : Type} (c : Char) (v : TNode T) : List (Char × TNode T) → List (Char × TNode T)
  | [] => [(c, v)]
  | (c', v') :: rest =>
      if c < c' then (c, v) :: (c', v') :: rest
      else if c = c' then (c, v) :: rest
      else (c', v') :: insertA c v rest

/-- `BTreeMap::remove` on the children association list. -/
def eraseA {T : Type} (c : Char) : List (Char × TNode T) → List (Char × TNode T)
  | [] => []
  | (c', v') :: rest => if c = c' then rest else (c', v') :: eraseA c rest

/-- `TNode::add` (`src/trie.rs` lines 146-195). The Rust function mutates
`self` through `&mut` and returns `Result<_, KeyExists>`; here the updated
node is returned together with a flag that is `true` on `Ok` and `false` on
`Err(KeyExists)`. The two non-`Node` cases with a non-empty key inline the
source's `to_node` promotion followed by `or_insert(TNode::Empty)`: both
leave the promoted node's `content`/`is_terminal` untouched and recurse
into a fresh `Empty` child. -/
def add {T : Type} : TNode T → List Char → Option T → TNode T × Bool
  | t, [], cont =>
      if isTerminal t then (t, false)
      else
        match t with
        | .node _ ch _ => (.node cont ch true, true)
        | .leaf _ _ => (.leaf cont true, true)
        | .empty => (.leaf cont true, true)
  | .empty, c :: rest, cont =>
      let r := add .empty rest cont
      (.node none (insertA c r.1 []) false, r.2)
  | .leaf lc lit, c :: rest, cont =>
      let r := add .empty rest cont
      (.node lc (insertA c r.1 []) lit, r.2)
  | .node cc ch it, c :: rest, cont =>
      let r := add ((lookupA c ch).getD .empty) rest cont
      (.node cc (insertA c r.1 ch) it, r.2)

/-- The `FindResults` struct of `src/trie.rs` (a found node plus the
accumulated matched key characters). -/
structure FindResults (T : Type) where
  node : Option (TNode T)
  pfx : List Char

/-- The `LongestPrefOpts` struct of `src/trie.rs`. -/
structure LongestPrefOpts where
  must_be_terminal : Bool
  must_match_fully : Bool

/-- `TNode::longest_prefix_fn` (`src/trie.rs` lines 225-308). -/
def longest_prefix_fn {T : Type} :
    TNode T → List Char → List Char → FindResults T → LongestPrefOpts → FindResults T
  | .empty, _, _, _, _ => ⟨none, []⟩
  | .leaf lc lit, str_left, str_acc, last_terminal, opts =>
      let new_last_terminal :=
        if lit then (⟨some (.leaf lc lit), str_acc⟩ : FindResults T) else last_terminal
      match str_left with
      | [] =>
          if opts.must_be_terminal then new_last_terminal
          else ⟨some (.leaf lc lit), str_acc⟩
      | _ :: _ => ⟨none, []⟩
  | .node cc ch it, str_left, str_acc, last_terminal, opts =>
      let new_last_terminal :=
        if it then (⟨some (.node cc ch it), str_acc⟩ : FindResults T) else last_terminal
      match str_left with
      | [] =>
          if opts.must_be_terminal then new_last_terminal
          else ⟨some (.node cc ch it), str_acc⟩
      | c :: rest =>
          match lookupA c ch with
          | none =>
              if opts.must_match_fully then ⟨none, []⟩
              else ⟨some (.node cc ch it), str_acc⟩
          | some next => longest_prefix_fn next rest (str_acc ++ [c]) new_last_terminal opts

/-- `TNode::find` (`src/trie.rs` lines 201-211). -/
def find {T : Type} (t : TNode T) (s : List Char) (mbt : Bool) : Option (TNode T) :=
  (longest_prefix_fn t s [] ⟨none, []⟩ ⟨mbt, true⟩).node

/-- `TNode::contains_key`. -/
def contains_key {T : Type} (t : TNode T) (s : List Char) : Bool :=
  (find t s true).isSome

/-- `TNode::longest_prefix` (`src/trie.rs` lines 213-223), returning the
matched key characters. -/
def longestPrefix {T : Type} (t : TNode T) (s : List Char) (mbt : Bool) : List Char :=
  (longest_prefix_fn t s [] ⟨none, []⟩ ⟨mbt, false⟩).pfx

/-- `TNode::to_leaf`: panics (here `none`) on a `Leaf`, else converts to a
`Leaf` keeping payload and terminal flag. -/
def toLeaf {T : Type} : TNode T → Option (TNode T)
  | .empty => some (.leaf none false)
  | .node c _ it => some (.leaf c it)
  | .leaf _ _ => none

/-- `TNode::remove_fn` (`src/trie.rs` lines 353-408). Returns
`(bubble_up, removed)` together with the updated node, or `none` where the
Rust code panics: on an empty key (`str_left.chars().next().unwrap()`) and
on an `Empty` child (`panic!("Something wrong")`). -/
def remove_fn {T : Type} : TNode T → List Char → Bool → Option (TNode T × Bool × Bool)
  | _, [], _ => none
  | .empty, _ :: _, _ => some (.empty, false, false)
  | .leaf lc lit, _ :: _, _ => some (.leaf lc lit, false, false)
  | .node cc ch it, first_char :: rest, remove_subtree =>
      match lookupA first_char ch with
      | none => some (.node cc ch it, false, false)
      | some child =>
        if rest.isEmpty then
          match child with
          | .leaf _ _ => some (.node cc (eraseA first_char ch) it, !it, true)
          | .empty => none
          | .node scc sch sit =>
              if remove_subtree then
                some (.node cc (eraseA first_char ch) it, !it, true)
              else if !sit then
                some (.node cc ch it, false, false)
              else
                some (.node cc (insertA first_char (.node scc sch false) ch) it, true, true)
        else
          match remove_fn child rest remove_subtree with
          | none => none
          | some (child', bu, rm) =>
              match (if rm && isChildless child' then toLeaf child' else some child') with
              | none => none
              | some child'' =>
                  let ch' := insertA first_char child'' ch
                  if bu then some (.node cc (eraseA first_char ch') it, !it, true)
                  else some (.node cc ch' it, false, rm)

/-- `TNode::remove`: the `removed` component of `remove_fn`. -/
def removeOk {T : Type} (t : TNode T) (s : List Char) (sub : Bool) : Option Bool :=
  (remove_fn t s sub).map (fun r => r.2.2)

/-- The trie left behind by `remove` (unchanged where the source panics). -/
def afterRemove {T : Type} (t : TNode T) (s : List Char) (sub : Bool) : TNode T :=
  ((remove_fn t s sub).map (fun r => r.1)).getD t

mutual
/-- `TNode::pp_fn` (`src/trie.rs` lines 314-347). `disp` embeds the
`Display` instance of `T`; the `Leaf` arm's `format!("  {}", self)` prints
two spaces and then `"(<payload>)"` when a payload is present (the
`Display` impl of `TNode` prints nothing for a `None` payload). -/
def pp_fn {T : Type} (disp : T → String) : TNode T → Nat → Bool → String
  | .empty, _, _ => "[empty]\n"
  | .leaf lc _, _, print_content =>
      (if print_content then
        "  " ++ (match lc with | some x => "(" ++ disp x ++ ")" | none => "")
      else "") ++ "\n"
  | .node _ ch it, indent, print_content =>
      ppKids disp (it || decide (1 < ch.length)) indent print_content ch
/-- The `for (k, v) in iter` loop of `TNode::pp_fn` over the children in
ascending key order; `cond` is `node.is_terminal || child_count > 1`,
computed once from the whole child list. -/
def ppKids {T : Type} (disp : T → String) (cond : Bool) (indent : Nat) (print_content : Bool) :
    List (Char × TNode T) → String
  | [] => ""
  | (k, v) :: rest =>
      (if cond then (if indent ≠ 0 then "\n" else "") ++ String.mk (List.replicate indent ' ')
       else "")
        ++ String.mk [k] ++ pp_fn disp v (indent + 1) print_content
        ++ ppKids disp cond indent print_content rest
end

/-- `TNode::pp`: `pp_fn` at indent 0. -/
def pp {T : Type} (disp : T → String) (t : TNode T) (print_content : Bool) : String :=
  pp_fn disp t 0 print_content

/-! ### Structural predicates used to state the invariants of the spec -/

mutual
/-- Every `Branch` in the tree (including its root) has at least one
child. -/
def goodB {T : Type} : TNode T → Bool
  | .empty => true
  | .leaf _ _ => true
  | .node _ ch _ => !ch.isEmpty && goodL ch
/-- `goodB` for every tree in a child list. -/
def goodL {T : Type} : List (Char × TNode T) → Bool
  | [] => true
  | (_, v) :: rest => goodB v && goodL rest
end

/-- Every `Branch` strictly below the root has at least one child (the
root itself may be childless). -/
def belowGood {T : Type} : TNode T → Bool
  | .empty => true
  | .leaf _ _ => true
  | .node _ ch _ => goodL ch

mutual
/-- No child list anywhere in the tree contains an `Empty` node. -/
def noEmptyChild {T : Type} : TNode T → Bool
  | .empty => true
  | .leaf _ _ => true
  | .node _ ch _ => noEmptyL ch
/-- `noEmptyChild` plus non-`Empty`-ness for every tree in a child list. -/
def noEmptyL {T : Type} : List (Char × TNode T) → Bool
  | [] => true
  | (_, v) :: rest => !isEmptyNode v && noEmptyChild v && noEmptyL rest
end

/-- Keys of an association list are in strictly ascending order (the
`BTreeMap` ordering invariant). -/
def sortedKeys {T : Type} : List (Char × TNode T) → Bool
  | [] => true
  | [_] => true
  | (c, _) :: (c', v') :: rest => decide (c < c') && sortedKeys ((c', v') :: rest)

mutual
/-- Every child list in the tree is sorted by key. -/
def allSorted {T : Type} : TNode T → Bool
  | .empty => true
  | .leaf _ _ => true
  | .node _ ch _ => sortedKeys ch && allSortedL ch
/-- `allSorted` for every tree in a child list. -/
def allSortedL {T : Type} : List (Char × TNode T) → Bool
  | [] => true
  | (_, v) :: rest => allSorted v && allSortedL rest
end

/-- The representation invariant of tries reachable through the public
interface: sorted child lists, no `Empty` children, and every `Branch`
strictly below the root non-childless. -/
def rootInv {T : Type} (t : TNode T) : Bool :=
  allSorted t && noEmptyChild t && belowGood t

/-- `rootInv` strengthened at the root: the root, too, is not a childless
`Branch`. -/
def fullInv {T : Type} (t : TNode T) : Bool :=
  allSorted t && noEmptyChild t && goodB t

/-! ### Walking a key (used to state lookup claims) -/

/-- Following a key through the children maps: `some` of the node reached
when every code point of the key has a matching child. -/
def walkTo {T : Type} : TNode T → List Char → Option (TNode T)
  | t, [] => some t
  | .node _ ch _, c :: r =>
      match lookupA c ch with
      | some u => walkTo u r
      | none => none
  | .empty, _ :: _ => none
  | .leaf _ _, _ :: _ => none

/-- The key is fully walkable and lands on a non-`Empty` node. -/
def walkNE {T : Type} (t : TNode T) (k : List Char) : Bool :=
  match walkTo t k with
  | some u => !isEmptyNode u
  | none => false

/-- Some node on the walked path (the start node, the intermediate nodes,
or the node reached) is terminal; only meaningful when the walk succeeds. -/
def pathHasTerminal {T : Type} : TNode T → List Char → Bool
  | t, [] => isTerminal t
  | .node _ ch it, c :: r =>
      it || (match lookupA c ch with
             | some u => pathHasTerminal u r
             | none => false)
  | .empty, _ :: _ => false
  | .leaf _ _, _ :: _ => false

/-! ### Sequences of public operations -/

/-- A public mutating operation: an insertion, or a removal with a
non-empty key (the source's `remove` unconditionally reads the key's first
code point). -/
inductive Op (T : Type) where
  | ins (k : List Char) (p : Option T) : Op T
  | del (c : Char) (k : List Char) (sub : Bool) : Op T

/-- One mutating operation applied to a trie (a panic leaves it as is). -/
def applyOp {T : Type} (t : TNode T) : Op T → TNode T
  | .ins k p => (add t k p).1
  | .del c k sub => afterRemove t (c :: k) sub

/-- The trie reached from `TNode::Empty` by a sequence of operations. -/
def run {T : Type} (ops : List (Op T)) : TNode T :=
  ops.foldl applyOp .empty

/-! ### Concrete tries used by the claim evaluations -/

/-- The trie `{"ab" → 1, "abc" → 2}` built by two insertions. -/
def trieAB_ABC : TNode Nat :=
  (add ((add .empty "ab".toList (some 1)).1) "abc".toList (some 2)).1

/-- The trie `{"ab" → 1, "ac" → 2}` built by two insertions. -/
def trieAB_AC : TNode Nat :=
  (add ((add .empty "ab".toList (some 1)).1) "ac".toList (some 2)).1

/-- The trie `{"a" → 1, "abc" → 2}` built by two insertions. -/
def trieA_ABC : TNode Nat :=
  (add ((add .empty "a".toList (some 1)).1) "abc".toList (some 2)).1

/-- The trie `{"a" → 1, "abc" → 2, "d" → 3, "e" → 4}` of the rendering
scenario. -/
def trieC8 : TNode Nat :=
  (add ((add ((add ((add .empty "a".toList (some 1)).1) "abc".toList (some 2)).1)
    "d".toList (some 3)).1) "e".toList (some 4)).1

/-! ### Association-list lemmas -/

theorem bandE {a b : Bool} (h : (a && b) = true) : a = true ∧ b = true := by
  simp_all

theorem bandI {a b : Bool} (h1 : a = true) (h2 : b = true) : (a && b) = true := by
  simp_all

theorem lookupA_insertA_self {T : Type} (c : Char) (v : TNode T) :
    ∀ l : List (Char × TNode T), lookupA c (insertA c v l) = some v := by
  intro l
  induction l with
  | nil => simp [insertA, lookupA]
  | cons hd tl ih =>
      obtain ⟨c', v'⟩ := hd
      by_cases hlt : c < c'
      · simp [insertA, hlt, lookupA]
      · by_cases heq : c = c'
        · simp [insertA, hlt, heq, lookupA]
        · simp [insertA, hlt, heq, lookupA, ih]

theorem insertA_insertA {T : Type} (c : Char) (v : TNode T) :
    ∀ l : List (Char × TNode T), insertA c v (insertA c v l) = insertA c v l := by
  intro l
  induction l with
  | nil => simp [insertA, lt_irrefl]
  | cons hd tl ih =>
      obtain ⟨c', v'⟩ := hd
      by_cases hlt : c < c'
      · simp [insertA, hlt, lt_irrefl]
      · by_cases heq : c = c'
        · simp [insertA, hlt, heq, lt_irrefl]
        · simp [insertA, hlt, heq, ih]

/-- The first key of a child list is greater than `c` (vacuously true for
an empty list). -/
def headGt {T : Type} (c : Char) : List (Char × TNode T) → Bool
  | [] => true
  | (c', _) :: _ => decide (c < c')

theorem sortedKeys_cons {T : Type} (c : Char) (v : TNode T) (l : List (Char × TNode T)) :
    sortedKeys ((c, v) :: l) = (headGt c l && sortedKeys l) := by
  cases l with
  | nil => simp [sortedKeys, headGt]
  | cons hd tl => obtain ⟨c', v'⟩ := hd; simp [sortedKeys, headGt]

theorem headGt_insertA {T : Type} (c0 c : Char) (v : TNode T) (l : List (Char × TNode T))
    (hc : c0 < c) (hl : headGt c0 l = true) : headGt c0 (insertA c v l) = true := by
  cases l with
  | nil => simpa [insertA, headGt]
  | cons hd tl =>
      obtain ⟨c', v'⟩ := hd
      by_cases hlt : c < c'
      · simpa [insertA, hlt, headGt]
      · by_cases heq : c = c'
        · subst heq; simp [insertA, hlt, headGt, hc]
        · simpa [insertA, hlt, heq, headGt] using hl

theorem sortedKeys_insertA {T : Type} (c : Char) (v : TNode T) :
    ∀ l : List (Char × TNode T), sortedKeys l = true → sortedKeys (insertA c v l) = true := by
  intro l
  induction l with
  | nil => intro _; simp [insertA, sortedKeys]
  | cons hd tl ih =>
      obtain ⟨c', v'⟩ := hd
      intro hs
      rw [sortedKeys_cons] at hs
      obtain ⟨hhd, htl⟩ := bandE hs
      by_cases hlt : c < c'
      · simp only [insertA, hlt, if_pos]
        rw [sortedKeys_cons, sortedKeys_cons]
        exact bandI (by simp [headGt, hlt]) (bandI hhd htl)
      · by_cases heq : c = c'
        · subst heq
          simp only [insertA, hlt, if_neg, if_pos, ite_true, ite_false]
          rw [sortedKeys_cons]
          simp [hhd, htl]
        · have hgt : c' < c := by
            rcases lt_trichotomy c c' with h | h | h <;> simp_all
          simp only [insertA, hlt, heq, ite_false]
          rw [sortedKeys_cons]
          exact bandI (headGt_insertA c' c v tl hgt hhd) (ih htl)

theorem headGt_eraseA {T : Type} (c0 c : Char) (l : List (Char × TNode T))
    (hs : sortedKeys l = true) (hl : headGt c0 l = true) : headGt c0 (eraseA c l) = true := by
  cases l with
  | nil => simp [eraseA, headGt]
  | cons hd tl =>
      obtain ⟨c', v'⟩ := hd
      by_cases heq : c = c'
      · rw [sortedKeys_cons] at hs
        obtain ⟨hhd, _⟩ := bandE hs
        simp only [eraseA, heq, ite_true]
        cases tl with
        | nil => simp [headGt]
        | cons hd2 tl2 =>
            obtain ⟨c2, v2⟩ := hd2
            simp only [headGt, decide_eq_true_eq] at hhd hl ⊢
            exact lt_trans (by simpa [headGt] using hl) hhd
      · simpa [eraseA, heq, headGt] using hl

theorem sortedKeys_eraseA {T : Type} (c : Char) :
    ∀ l : List (Char × TNode T), sortedKeys l = true → sortedKeys (eraseA c l) = true := by
  intro l
  induction l with
  | nil => intro _; simp [eraseA, sortedKeys]
  | cons hd tl ih =>
      obtain ⟨c', v'⟩ := hd
      intro hs
      rw [sortedKeys_cons] at hs
      obtain ⟨hhd, htl⟩ := bandE hs
      by_cases heq : c = c'
      · simpa [eraseA, heq]
      · simp only [eraseA, heq, ite_false]
        rw [sortedKeys_cons]
        exact bandI (headGt_eraseA c' c tl htl hhd) (ih htl)

theorem lookupA_mem_gt {T : Type} (c : Char) (v : TNode T) :
    ∀ (l : List (Char × TNode T)) (c' : Char), headGt c' l = true → sortedKeys l = true →
      lookupA c l = some v → c' < c := by
  intro l
  induction l with
  | nil => intro c' _ _ h; simp [lookupA] at h
  | cons hd tl ih =>
      obtain ⟨c2, v2⟩ := hd
      intro c' hh hs hl
      simp only [headGt, decide_eq_true_eq] at hh
      by_cases heq : c = c2
      · subst heq; exact hh
      · rw [sortedKeys_cons] at hs
        obtain ⟨hhd2, htl2⟩ := bandE hs
        simp only [lookupA, heq, ite_false] at hl
        exact lt_trans hh (ih c2 hhd2 htl2 hl)

theorem insertA_of_lookupA_sorted {T : Type} (c : Char) (v : TNode T) :
    ∀ l : List (Char × TNode T), sortedKeys l = true → lookupA c l = some v →
      insertA c v l = l := by
  intro l
  induction l with
  | nil => intro _ h; simp [lookupA] at h
  | cons hd tl ih =>
      obtain ⟨c', v'⟩ := hd
      intro hs hl
      rw [sortedKeys_cons] at hs
      obtain ⟨hhd, htl⟩ := bandE hs
      by_cases heq : c = c'
      · subst heq
        simp [lookupA] at hl
        subst hl
        simp [insertA, lt_irrefl]
      · simp only [lookupA, heq, ite_false] at hl
        have hgt : c' < c := lookupA_mem_gt c v tl c' hhd htl hl
        have hlt : ¬ c < c' := not_lt_of_gt hgt
        simp [insertA, hlt, heq, ih htl hl]

theorem insertA_not_nil {T : Type} (c : Char) (v : TNode T) (l : List (Char × TNode T)) :
    (insertA c v l).isEmpty = false := by
  cases l with
  | nil => simp [insertA]
  | cons hd tl =>
      obtain ⟨c', v'⟩ := hd
      by_cases hlt : c < c'
      · simp [insertA, hlt]
      · by_cases heq : c = c' <;> simp [insertA, hlt, heq]

/-! ### Predicates over all values of a child list -/

/-- `p` holds of every value of the association list. -/
def valAll {T : Type} (p : TNode T → Bool) : List (Char × TNode T) → Bool
  | [] => true
  | (_, v) :: rest => p v && valAll p rest

theorem valAll_lookupA {T : Type} (p : TNode T → Bool) (c : Char) (u : TNode T) :
    ∀ l : List (Char × TNode T), valAll p l = true → lookupA c l = some u → p u = true := by
  intro l
  induction l with
  | nil => intro _ h; simp [lookupA] at h
  | cons hd tl ih =>
      obtain ⟨c', v'⟩ := hd
      intro hv hl
      obtain ⟨hp, htl⟩ := bandE hv
      by_cases heq : c = c'
      · simp only [lookupA, heq, ite_true, Option.some.injEq] at hl
        exact hl ▸ hp
      · simp only [lookupA, heq, ite_false] at hl
        exact ih htl hl

theorem valAll_getD {T : Type} (p : TNode T → Bool) (c : Char) (l : List (Char × TNode T))
    (hp : p .empty = true) (hv : valAll p l = true) :
    p ((lookupA c l).getD .empty) = true := by
  cases hl : lookupA c l with
  | none => simpa [hl]
  | some u => simpa [hl] using valAll_lookupA p c u l hv hl

theorem valAll_insertA {T : Type} (p : TNode T → Bool) (c : Char) (v : TNode T) :
    ∀ l : List (Char × TNode T), valAll p l = true → p v = true →
      valAll p (insertA c v l) = true := by
  intro l
  induction l with
  | nil => intro _ hv; simp [insertA, valAll, hv]
  | cons hd tl ih =>
      obtain ⟨c', v'⟩ := hd
      intro hl hv
      obtain ⟨hp, htl⟩ := bandE hl
      by_cases hlt : c < c'
      · simp [insertA, hlt, valAll, hv, hp, htl]
      · by_cases heq : c = c'
        · simp [insertA, hlt, heq, valAll, hv, htl]
        · simp [insertA, hlt, heq, valAll, hp, ih htl hv]

theorem valAll_eraseA {T : Type} (p : TNode T → Bool) (c : Char) :
    ∀ l : List (Char × TNode T), valAll p l = true → valAll p (eraseA c l) = true := by
  intro l
  induction l with
  | nil => intro _; simp [eraseA, valAll]
  | cons hd tl ih =>
      obtain ⟨c', v'⟩ := hd
      intro hl
      obtain ⟨hp, htl⟩ := bandE hl
      by_cases heq : c = c'
      · simpa [eraseA, heq]
      · simp [eraseA, heq, valAll, hp, ih htl]

/-! ### Bridging the mutually-defined tree predicates to `valAll` -/

theorem goodL_eq_valAll {T : Type} :
    ∀ l : List (Char × TNode T), goodL l = valAll goodB l := by
  intro l
  induction l with
  | nil => rfl
  | cons hd tl ih => obtain ⟨c, v⟩ := hd; simp [goodL, valAll, ih]

theorem noEmptyL_eq_valAll {T : Type} :
    ∀ l : List (Char × TNode T),
      noEmptyL l = valAll (fun u => !isEmptyNode u && noEmptyChild u) l := by
  intro l
  induction l with
  | nil => rfl
  | cons hd tl ih =>
      obtain ⟨c, v⟩ := hd
      simp only [noEmptyL, valAll, ih, Bool.and_assoc]

theorem allSortedL_eq_valAll {T : Type} :
    ∀ l : List (Char × TNode T), allSortedL l = valAll allSorted l := by
  intro l
  induction l with
  | nil => rfl
  | cons hd tl ih => obtain ⟨c, v⟩ := hd; simp [allSortedL, valAll, ih]

theorem goodB_node {T : Type} (cc : Option T) (ch : List (Char × TNode T)) (it : Bool) :
    goodB (.node cc ch it) = (!ch.isEmpty && valAll goodB ch) := by
  simp [goodB, goodL_eq_valAll]

theorem belowGood_node {T : Type} (cc : Option T) (ch : List (Char × TNode T)) (it : Bool) :
    belowGood (.node cc ch it) = valAll goodB ch := by
  simp [belowGood, goodL_eq_valAll]

theorem noEmptyChild_node {T : Type} (cc : Option T) (ch : List (Char × TNode T)) (it : Bool) :
    noEmptyChild (.node cc ch it) = valAll (fun u => !isEmptyNode u && noEmptyChild u) ch := by
  simp [noEmptyChild, noEmptyL_eq_valAll]

theorem allSorted_node {T : Type} (cc : Option T) (ch : List (Char × TNode T)) (it : Bool) :
    allSorted (.node cc ch it) = (sortedKeys ch && valAll allSorted ch) := by
  simp [allSorted, allSortedL_eq_valAll]

/-! ### Preservation of the representation invariant by `add` -/

theorem fullInv_node_iff {T : Type} (cc : Option T) (ch : List (Char × TNode T)) (it : Bool) :
    fullInv (.node cc ch it) = true ↔
      (sortedKeys ch = true ∧ valAll allSorted ch = true ∧
       valAll (fun u => !isEmptyNode u && noEmptyChild u) ch = true ∧
       ch.isEmpty = false ∧ valAll goodB ch = true) := by
  simp only [fullInv, allSorted_node, noEmptyChild_node, goodB_node, Bool.and_eq_true,
    Bool.not_eq_true']
  tauto

theorem rootInv_node_iff {T : Type} (cc : Option T) (ch : List (Char × TNode T)) (it : Bool) :
    rootInv (.node cc ch it) = true ↔
      (sortedKeys ch = true ∧ valAll allSorted ch = true ∧
       valAll (fun u => !isEmptyNode u && noEmptyChild u) ch = true ∧
       valAll goodB ch = true) := by
  simp only [rootInv, allSorted_node, noEmptyChild_node, belowGood_node, Bool.and_eq_true]
  tauto

theorem fullInv_parts {T : Type} {u : TNode T} (h : fullInv u = true) :
    allSorted u = true ∧ noEmptyChild u = true ∧ goodB u = true := by
  obtain ⟨h1, h2⟩ := bandE h
  obtain ⟨h1a, h1b⟩ := bandE h1
  exact ⟨h1a, h1b, h2⟩

theorem fullInv_intro {T : Type} {u : TNode T} (h1 : allSorted u = true)
    (h2 : noEmptyChild u = true) (h3 : goodB u = true) : fullInv u = true := by
  simp [fullInv, h1, h2, h3]

theorem fullInv_lookup {T : Type} {cc : Option T} {ch : List (Char × TNode T)} {it : Bool}
    {c : Char} {u : TNode T} (h : fullInv (.node cc ch it) = true)
    (hl : lookupA c ch = some u) : fullInv u = true ∧ isEmptyNode u = false := by
  obtain ⟨_, ha, hn, _, hg⟩ := (fullInv_node_iff cc ch it).mp h
  have h1 := valAll_lookupA _ c u ch ha hl
  have h2 := valAll_lookupA _ c u ch hn hl
  have h3 := valAll_lookupA _ c u ch hg hl
  obtain ⟨h2a, h2b⟩ := bandE h2
  exact ⟨fullInv_intro h1 h2b h3, by simpa using h2a⟩

theorem rootInv_lookup {T : Type} {cc : Option T} {ch : List (Char × TNode T)} {it : Bool}
    {c : Char} {u : TNode T} (h : rootInv (.node cc ch it) = true)
    (hl : lookupA c ch = some u) : fullInv u = true ∧ isEmptyNode u = false := by
  obtain ⟨_, ha, hn, hg⟩ := (rootInv_node_iff cc ch it).mp h
  have h1 := valAll_lookupA _ c u ch ha hl
  have h2 := valAll_lookupA _ c u ch hn hl
  have h3 := valAll_lookupA _ c u ch hg hl
  obtain ⟨h2a, h2b⟩ := bandE h2
  exact ⟨fullInv_intro h1 h2b h3, by simpa using h2a⟩

theorem add_not_empty {T : Type} :
    ∀ (k : List Char) (t : TNode T) (p : Option T), isEmptyNode (add t k p).1 = false := by
  intro k
  cases k with
  | nil =>
      intro t p
      cases t with
      | empty => simp [add, isTerminal, isEmptyNode]
      | leaf lc lit => cases lit <;> simp [add, isTerminal, isEmptyNode]
      | node cc ch it => cases it <;> simp [add, isTerminal, isEmptyNode]
  | cons c rest =>
      intro t p
      cases t <;> simp [add, isEmptyNode]

theorem add_full {T : Type} :
    ∀ (k : List Char) (t : TNode T) (p : Option T),
      fullInv t = true → fullInv (add t k p).1 = true := by
  intro k
  induction k with
  | nil =>
      intro t p h
      cases t with
      | empty => simp only [add, isTerminal, Bool.false_eq_true, ite_false]; rfl
      | leaf lc lit =>
          cases lit with
          | true => simpa [add, isTerminal]
          | false => simp only [add, isTerminal, Bool.false_eq_true, ite_false]; rfl
      | node cc ch it =>
          cases it with
          | true => simpa [add, isTerminal]
          | false =>
              simp only [add, isTerminal, Bool.false_eq_true, ite_false]
              rw [fullInv_node_iff] at h ⊢
              exact h
  | cons c rest ih =>
      intro t p h
      cases t with
      | empty =>
          have hr := ih .empty p rfl
          obtain ⟨ha, hn, hg⟩ := fullInv_parts hr
          have hne := add_not_empty rest (.empty : TNode T) p
          simp only [add]
          rw [fullInv_node_iff]
          refine ⟨?_, ?_, ?_, ?_, ?_⟩ <;>
            simp [insertA, sortedKeys, valAll, ha, hn, hg, hne, List.isEmpty]
      | leaf lc lit =>
          have hr := ih .empty p rfl
          obtain ⟨ha, hn, hg⟩ := fullInv_parts hr
          have hne := add_not_empty rest (.empty : TNode T) p
          simp only [add]
          rw [fullInv_node_iff]
          refine ⟨?_, ?_, ?_, ?_, ?_⟩ <;>
            simp [insertA, sortedKeys, valAll, ha, hn, hg, hne, List.isEmpty]
      | node cc ch it =>
          have hchild : fullInv ((lookupA c ch).getD TNode.empty) = true := by
            cases hc : lookupA c ch with
            | none => rfl
            | some u => simpa [hc] using (fullInv_lookup h hc).1
          have hr := ih _ p hchild
          obtain ⟨ha, hn, hg⟩ := fullInv_parts hr
          have hne := add_not_empty rest ((lookupA c ch).getD TNode.empty) p
          obtain ⟨hs0, ha0, hn0, _, hg0⟩ := (fullInv_node_iff cc ch it).mp h
          simp only [add]
          rw [fullInv_node_iff]
          refine ⟨sortedKeys_insertA c _ ch hs0, valAll_insertA _ c _ ch ha0 ha,
            valAll_insertA _ c _ ch hn0 (by simp [hne, hn]),
            insertA_not_nil c _ ch, valAll_insertA _ c _ ch hg0 hg⟩

theorem goodB_implies_below {T : Type} (t : TNode T) (h : goodB t = true) :
    belowGood t = true := by
  cases t with
  | empty => rfl
  | leaf lc lit => rfl
  | node cc ch it =>
      rw [goodB_node] at h
      rw [belowGood_node]
      exact (bandE h).2

theorem fullInv_implies_root {T : Type} (t : TNode T) (h : fullInv t = true) :
    rootInv t = true := by
  obtain ⟨h1, h2, h3⟩ := fullInv_parts h
  simp [rootInv, h1, h2, goodB_implies_below t h3]

theorem add_rootInv {T : Type} :
    ∀ (k : List Char) (t : TNode T) (p : Option T),
      rootInv t = true → rootInv (add t k p).1 = true := by
  intro k t p h
  cases t with
  | empty => exact fullInv_implies_root _ (add_full k .empty p rfl)
  | leaf lc lit => exact fullInv_implies_root _ (add_full k (.leaf lc lit) p rfl)
  | node cc ch it =>
      obtain ⟨hs0, ha0, hn0, hg0⟩ := (rootInv_node_iff cc ch it).mp h
      cases k with
      | nil =>
          by_cases hit : it = true
          · simpa [add, isTerminal, hit]
          · simp only [add, isTerminal, hit, Bool.false_eq_true, if_neg, ite_false]
            rw [rootInv_node_iff]
            exact ⟨hs0, ha0, hn0, hg0⟩
      | cons c rest =>
          have hchild : fullInv ((lookupA c ch).getD TNode.empty) = true := by
            cases hc : lookupA c ch with
            | none => rfl
            | some u => simpa [hc] using (rootInv_lookup h hc).1
          have hr := add_full rest _ p hchild
          obtain ⟨ha, hn, hg⟩ := fullInv_parts hr
          have hne := add_not_empty rest ((lookupA c ch).getD TNode.empty) p
          simp only [add]
          rw [rootInv_node_iff]
          exact ⟨sortedKeys_insertA c _ ch hs0, valAll_insertA _ c _ ch ha0 ha,
            valAll_insertA _ c _ ch hn0 (by simp [hne, hn]), valAll_insertA _ c _ ch hg0 hg⟩

/-! ### Preservation of the representation invariant by `remove_fn` -/

theorem rem_main {T : Type} :
    ∀ (key : List Char) (t : TNode T) (sub : Bool) (res : TNode T × Bool × Bool),
      fullInv t = true → remove_fn t key sub = some res →
        rootInv res.1 = true
        ∧ (res.2.2 = false → res.1 = t)
        ∧ (res.2.2 = true →
            ∃ cc2 ch2 it2 ch', t = TNode.node cc2 ch2 it2 ∧ res.1 = TNode.node cc2 ch' it2) := by
  intro key
  induction key with
  | nil =>
      intro t sub res _ hr
      cases t <;> simp [remove_fn] at hr
  | cons c rest ih =>
      intro t sub res h hr
      cases t with
      | empty =>
          simp only [remove_fn, Option.some.injEq] at hr
          subst hr
          exact ⟨rfl, fun _ => rfl, fun hx => by simp at hx⟩
      | leaf lc lit =>
          simp only [remove_fn, Option.some.injEq] at hr
          subst hr
          exact ⟨rfl, fun _ => rfl, fun hx => by simp at hx⟩
      | node cc ch it =>
          obtain ⟨hs0, ha0, hn0, hne0, hg0⟩ := (fullInv_node_iff cc ch it).mp h
          simp only [remove_fn] at hr
          cases hc : lookupA c ch with
          | none =>
              rw [hc] at hr
              simp only [Option.some.injEq] at hr
              subst hr
              exact ⟨fullInv_implies_root _ h, fun _ => rfl, fun hx => by simp at hx⟩
          | some child =>
              rw [hc] at hr
              obtain ⟨hchild, hchildne⟩ := fullInv_lookup h hc
              cases rest with
              | nil =>
                  simp only [List.isEmpty_nil, ite_true] at hr
                  cases child with
                  | empty => simp [isEmptyNode] at hchildne
                  | leaf llc llit =>
                      simp only [Option.some.injEq] at hr
                      subst hr
                      refine ⟨?_, fun hx => by simp at hx, fun _ => ⟨cc, ch, it, _, rfl, rfl⟩⟩
                      rw [rootInv_node_iff]
                      exact ⟨sortedKeys_eraseA c ch hs0, valAll_eraseA _ c ch ha0,
                        valAll_eraseA _ c ch hn0, valAll_eraseA _ c ch hg0⟩
                  | node scc sch sit =>
                      obtain ⟨hcs, hca, hcn, hcne, hcg⟩ := (fullInv_node_iff scc sch sit).mp hchild
                      by_cases hsub : sub = true
                      · simp only [hsub, ite_true, Option.some.injEq] at hr
                        subst hr
                        refine ⟨?_, fun hx => by simp at hx, fun _ => ⟨cc, ch, it, _, rfl, rfl⟩⟩
                        rw [rootInv_node_iff]
                        exact ⟨sortedKeys_eraseA c ch hs0, valAll_eraseA _ c ch ha0,
                          valAll_eraseA _ c ch hn0, valAll_eraseA _ c ch hg0⟩
                      · simp only [hsub, Bool.false_eq_true, ite_false] at hr
                        cases hsit : sit with
                        | false =>
                            simp only [hsit, Bool.not_false, eq_self_iff_true, if_true,
                              Option.some.injEq] at hr
                            subst hr
                            exact ⟨fullInv_implies_root _ h, fun _ => rfl,
                              fun hx => by simp at hx⟩
                        | true =>
                            simp only [hsit, Bool.not_true, Bool.false_eq_true, ite_false,
                              eq_self_iff_true, if_true, Option.some.injEq] at hr
                            subst hr
                            have hdem : fullInv (TNode.node scc sch false) = true := by
                              rw [fullInv_node_iff]
                              exact ⟨hcs, hca, hcn, hcne, hcg⟩
                            obtain ⟨hda, hdn, hdg⟩ := fullInv_parts hdem
                            refine ⟨?_, fun hx => by simp at hx,
                              fun _ => ⟨cc, ch, it, _, rfl, rfl⟩⟩
                            rw [rootInv_node_iff]
                            exact ⟨sortedKeys_insertA c _ ch hs0,
                              valAll_insertA _ c _ ch ha0 hda,
                              valAll_insertA _ c _ ch hn0 (by simp [isEmptyNode, hdn]),
                              valAll_insertA _ c _ ch hg0 hdg⟩
              | cons r0 rs =>
                  simp only [List.isEmpty_cons, Bool.false_eq_true, ite_false] at hr
                  cases hrec : remove_fn child (r0 :: rs) sub with
                  | none => rw [hrec] at hr; simp at hr
                  | some trip =>
                      obtain ⟨child', bu, rm⟩ := trip
                      rw [hrec] at hr
                      obtain ⟨hri, hid, hnd⟩ := ih child sub (child', bu, rm) hchild hrec
                      simp only at hri hid hnd
                      cases hrm : rm with
                      | false =>
                          subst hrm
                          have hcc : child' = child := hid rfl
                          subst hcc
                          simp only [Bool.false_and, Bool.false_eq_true, ite_false] at hr
                          have hins : insertA c child' ch = ch :=
                            insertA_of_lookupA_sorted c child' ch hs0 hc
                          cases hbu : bu with
                          | false =>
                              subst hbu
                              simp only [ite_false, Option.some.injEq, Bool.false_eq_true] at hr
                              subst hr
                              simp only [hins]
                              refine ⟨fullInv_implies_root _ h, ?_, ?_⟩ <;> simp
                          | true =>
                              subst hbu
                              simp only [ite_true, Option.some.injEq] at hr
                              subst hr
                              simp only [hins]
                              refine ⟨?_, fun hx => by simp at hx,
                                fun _ => ⟨cc, ch, it, _, rfl, rfl⟩⟩
                              rw [rootInv_node_iff]
                              exact ⟨sortedKeys_eraseA c ch hs0, valAll_eraseA _ c ch ha0,
                                valAll_eraseA _ c ch hn0, valAll_eraseA _ c ch hg0⟩
                      | true =>
                          subst hrm
                          obtain ⟨cc2, ch2, it2, ch2', heq1, heq2⟩ := hnd rfl
                          subst heq2
                          have hra : allSorted (TNode.node cc2 ch2' it2) = true :=
                            (bandE (bandE hri).1).1
                          have hrn : noEmptyChild (TNode.node cc2 ch2' it2) = true :=
                            (bandE (bandE hri).1).2
                          have hrb : belowGood (TNode.node cc2 ch2' it2) = true :=
                            (bandE hri).2
                          cases hcl : isChildless (TNode.node cc2 ch2' it2) with
                          | true =>
                              simp only [hcl, Bool.true_and, ite_true, toLeaf] at hr
                              have hfin :
                                  ∀ lst : List (Char × TNode T), lst = insertA c (.leaf cc2 it2) ch →
                                    rootInv (TNode.node cc lst it) = true := by
                                intro lst hlst
                                subst hlst
                                rw [rootInv_node_iff]
                                exact ⟨sortedKeys_insertA c _ ch hs0,
                                  valAll_insertA _ c (.leaf cc2 it2) ch ha0 (by rfl),
                                  valAll_insertA _ c (.leaf cc2 it2) ch hn0 (by rfl),
                                  valAll_insertA _ c (.leaf cc2 it2) ch hg0 (by rfl)⟩
                              cases hbu : bu with
                              | false =>
                                  subst hbu
                                  simp only [ite_false, Option.some.injEq,
                                    Bool.false_eq_true] at hr
                                  subst hr
                                  exact ⟨hfin _ rfl, fun hx => by simp at hx,
                                    fun _ => ⟨cc, ch, it, _, rfl, rfl⟩⟩
                              | true =>
                                  subst hbu
                                  simp only [ite_true, Option.some.injEq] at hr
                                  subst hr
                                  refine ⟨?_, fun hx => by simp at hx,
                                    fun _ => ⟨cc, ch, it, _, rfl, rfl⟩⟩
                                  obtain ⟨q1, q2, q3, q4⟩ :=
                                    (rootInv_node_iff cc (insertA c (.leaf cc2 it2) ch) it).mp
                                      (hfin _ rfl)
                                  rw [rootInv_node_iff]
                                  exact ⟨sortedKeys_eraseA c _ q1, valAll_eraseA _ c _ q2,
                                    valAll_eraseA _ c _ q3, valAll_eraseA _ c _ q4⟩
                          | false =>
                              have hgb : goodB (TNode.node cc2 ch2' it2) = true := by
                                rw [goodB_node]
                                refine bandI ?_ (by rw [belowGood_node] at hrb; exact hrb)
                                simpa [isChildless] using hcl
                              simp only [hcl, Bool.true_and, Bool.and_false,
                                Bool.false_eq_true, ite_false] at hr
                              have hfin :
                                  ∀ lst : List (Char × TNode T),
                                    lst = insertA c (TNode.node cc2 ch2' it2) ch →
                                    rootInv (TNode.node cc lst it) = true := by
                                intro lst hlst
                                subst hlst
                                rw [rootInv_node_iff]
                                exact ⟨sortedKeys_insertA c _ ch hs0,
                                  valAll_insertA _ c _ ch ha0 hra,
                                  valAll_insertA _ c _ ch hn0 (by simp [isEmptyNode, hrn]),
                                  valAll_insertA _ c _ ch hg0 hgb⟩
                              cases hbu : bu with
                              | false =>
                                  subst hbu
                                  simp only [ite_false, Option.some.injEq,
                                    Bool.false_eq_true] at hr
                                  subst hr
                                  exact ⟨hfin _ rfl, fun hx => by simp at hx,
                                    fun _ => ⟨cc, ch, it, _, rfl, rfl⟩⟩
                              | true =>
                                  subst hbu
                                  simp only [ite_true, Option.some.injEq] at hr
                                  subst hr
                                  refine ⟨?_, fun hx => by simp at hx,
                                    fun _ => ⟨cc, ch, it, _, rfl, rfl⟩⟩
                                  obtain ⟨q1, q2, q3, q4⟩ :=
                                    (rootInv_node_iff cc
                                      (insertA c (TNode.node cc2 ch2' it2) ch) it).mp
                                      (hfin _ rfl)
                                  rw [rootInv_node_iff]
                                  exact ⟨sortedKeys_eraseA c _ q1, valAll_eraseA _ c _ q2,
                                    valAll_eraseA _ c _ q3, valAll_eraseA _ c _ q4⟩

theorem rem_rootInv {T : Type} (t : TNode T) (c : Char) (k : List Char) (sub : Bool)
    (h : rootInv t = true) : rootInv (afterRemove t (c :: k) sub) = true := by
  cases t with
  | empty => simpa [afterRemove, remove_fn]
  | leaf lc lit => simpa [afterRemove, remove_fn]
  | node cc ch it =>
      by_cases hch : ch = []
      · subst hch
        simpa [afterRemove, remove_fn, lookupA] using h
      · have hfull : fullInv (TNode.node cc ch it) = true := by
          obtain ⟨hs0, ha0, hn0, hg0⟩ := (rootInv_node_iff cc ch it).mp h
          rw [fullInv_node_iff]
          refine ⟨hs0, ha0, hn0, ?_, hg0⟩
          cases ch with
          | nil => exact absurd rfl hch
          | cons hd tl => rfl
        cases hrf : remove_fn (TNode.node cc ch it) (c :: k) sub with
        | none => simpa [afterRemove, hrf]
        | some res =>
            have := (rem_main (c :: k) (TNode.node cc ch it) sub res hfull hrf).1
            simpa [afterRemove, hrf]

theorem foldl_rootInv {T : Type} :
    ∀ (ops : List (Op T)) (t : TNode T), rootInv t = true →
      rootInv (ops.foldl applyOp t) = true := by
  intro ops
  induction ops with
  | nil => intro t h; simpa
  | cons op rest ih =>
      intro t h
      simp only [List.foldl_cons]
      apply ih
      cases op with
      | ins k p => exact add_rootInv k t p h
      | del c k sub => exact rem_rootInv t c k sub h

theorem run_rootInv {T : Type} (ops : List (Op T)) : rootInv (run ops) = true :=
  foldl_rootInv ops .empty rfl

theorem rm_result_node {T : Type} :
    ∀ (key : List Char) (cc : Option T) (ch : List (Char × TNode T)) (it : Bool) (sub : Bool)
      (res : TNode T × Bool × Bool),
      remove_fn (.node cc ch it) key sub = some res → ∃ ch', res.1 = TNode.node cc ch' it := by
  intro key cc ch it sub res hr
  cases key with
  | nil => simp [remove_fn] at hr
  | cons c rest =>
      simp only [remove_fn] at hr
      repeat' split at hr
      all_goals try simp only [Option.some.injEq] at hr
      all_goals first
        | (subst hr; exact ⟨_, rfl⟩)
        | simp at hr

theorem remove_fn_step {T : Type} (cc : Option T) (ch : List (Char × TNode T)) (it : Bool)
    (c : Char) (rest : List Char) (sub : Bool) (child : TNode T)
    (hc : lookupA c ch = some child) (hne : rest.isEmpty = false) :
    remove_fn (.node cc ch it) (c :: rest) sub =
      match remove_fn child rest sub with
      | none => none
      | some (child', bu, rm) =>
          match (if rm && isChildless child' then toLeaf child' else some child') with
          | none => none
          | some child'' =>
              if bu then some (.node cc (eraseA c (insertA c child'' ch)) it, !it, true)
              else some (.node cc (insertA c child'' ch) it, false, rm) := by
  simp only [remove_fn, hc, hne, Bool.false_eq_true, ite_false]

theorem remove_no_panic {T : Type} :
    ∀ (rest : List Char) (t : TNode T) (c : Char) (sub : Bool),
      noEmptyChild t = true → (remove_fn t (c :: rest) sub).isSome = true := by
  intro rest
  induction rest with
  | nil =>
      intro t c sub h
      cases t with
      | empty => simp [remove_fn]
      | leaf lc lit => simp [remove_fn]
      | node cc ch it =>
          rw [noEmptyChild_node] at h
          cases hc : lookupA c ch with
          | none => simp [remove_fn, hc]
          | some child =>
              have hch := valAll_lookupA _ c child ch h hc
              obtain ⟨hne, _⟩ := bandE hch
              cases child with
              | empty => simp [isEmptyNode] at hne
              | leaf llc llit => simp [remove_fn, hc]
              | node scc sch sit =>
                  by_cases hsub : sub = true
                  · simp [remove_fn, hc, hsub]
                  · cases hsit : sit <;> simp [remove_fn, hc, hsub, hsit]
  | cons r0 rs ih =>
      intro t c sub h
      cases t with
      | empty => simp [remove_fn]
      | leaf lc lit => simp [remove_fn]
      | node cc ch it =>
          rw [noEmptyChild_node] at h
          cases hc : lookupA c ch with
          | none => simp [remove_fn, hc]
          | some child =>
              have hch := valAll_lookupA _ c child ch h hc
              obtain ⟨hne, hnec⟩ := bandE hch
              cases child with
              | empty => simp [isEmptyNode] at hne
              | leaf llc llit =>
                  rw [remove_fn_step cc ch it c (r0 :: rs) sub _ hc rfl]
                  simp [remove_fn, isChildless]
              | node scc sch sit =>
                  have hrec := ih (.node scc sch sit) r0 sub hnec
                  obtain ⟨res, hres⟩ := Option.isSome_iff_exists.mp hrec
                  obtain ⟨child', bu, rm⟩ := res
                  obtain ⟨ch', hch'⟩ := rm_result_node (r0 :: rs) scc sch sit sub _ hres
                  simp only at hch'
                  subst hch'
                  rw [remove_fn_step cc ch it c (r0 :: rs) sub _ hc rfl, hres]
                  cases hrm : rm with
                  | false =>
                      cases hbu : bu <;> simp [hrm, hbu]
                  | true =>
                      cases hbu : bu <;> cases hcl : isChildless (TNode.node scc ch' sit) <;>
                        simp [hrm, hbu, hcl, toLeaf]

/-! ### Lookup characterization lemmas -/

theorem lpf_no_empty {T : Type} :
    ∀ (k : List Char) (t : TNode T) (acc : List Char) (lt : FindResults T)
      (opts : LongestPrefOpts),
      (lt.node.all fun n => !isEmptyNode n) = true →
      ((longest_prefix_fn t k acc lt opts).node.all fun n => !isEmptyNode n) = true := by
  intro k
  induction k with
  | nil =>
      intro t acc lt opts h
      cases t with
      | empty => simp [longest_prefix_fn]
      | leaf lc lit =>
          cases lit <;> cases hmbt : opts.must_be_terminal <;>
            simp_all [longest_prefix_fn, isEmptyNode]
      | node cc ch it =>
          cases it <;> cases hmbt : opts.must_be_terminal <;>
            simp_all [longest_prefix_fn, isEmptyNode]
  | cons c rest ih =>
      intro t acc lt opts h
      cases t with
      | empty => simp [longest_prefix_fn]
      | leaf lc lit => simp [longest_prefix_fn]
      | node cc ch it =>
          cases hc : lookupA c ch with
          | none =>
              cases hmmf : opts.must_match_fully <;>
                simp [longest_prefix_fn, hc, hmmf, isEmptyNode]
          | some next =>
              simp only [longest_prefix_fn, hc]
              apply ih
              cases it <;> simp_all [isEmptyNode]

theorem lpf_isSome {T : Type} :
    ∀ (k : List Char) (t : TNode T) (acc : List Char) (lt : FindResults T),
      ((longest_prefix_fn t k acc lt ⟨true, true⟩).node).isSome
        = (walkNE t k && (pathHasTerminal t k || lt.node.isSome)) := by
  intro k
  induction k with
  | nil =>
      intro t acc lt
      cases t with
      | empty => simp [longest_prefix_fn, walkNE, walkTo, isEmptyNode]
      | leaf lc lit =>
          cases lit <;>
            simp [longest_prefix_fn, walkNE, walkTo, isEmptyNode, pathHasTerminal, isTerminal]
      | node cc ch it =>
          cases it <;>
            simp [longest_prefix_fn, walkNE, walkTo, isEmptyNode, pathHasTerminal, isTerminal]
  | cons c rest ih =>
      intro t acc lt
      cases t with
      | empty => simp [longest_prefix_fn, walkNE, walkTo]
      | leaf lc lit => simp [longest_prefix_fn, walkNE, walkTo]
      | node cc ch it =>
          cases hc : lookupA c ch with
          | none => simp [longest_prefix_fn, hc, walkNE, walkTo, pathHasTerminal]
          | some next =>
              simp only [longest_prefix_fn, hc]
              rw [ih]
              have hw : walkNE (TNode.node cc ch it) (c :: rest) = walkNE next rest := by
                simp [walkNE, walkTo, hc]
              have hp : pathHasTerminal (TNode.node cc ch it) (c :: rest)
                  = (it || pathHasTerminal next rest) := by
                simp [pathHasTerminal, hc]
              rw [hw, hp]
              cases it <;> simp [Bool.or_comm, Bool.or_left_comm]

/-! ### Insert round-trip and duplicate rejection -/

theorem add_find_lemma {T : Type} :
    ∀ (k : List Char) (t : TNode T) (p : Option T) (t' : TNode T),
      add t k p = (t', true) →
      ∀ (acc : List Char) (lt : FindResults T),
        ∃ n, (longest_prefix_fn t' k acc lt ⟨true, true⟩).node = some n
          ∧ contentOf n = some p ∧ isTerminal n = true := by
  intro k
  induction k with
  | nil =>
      intro t p t' hadd acc lt
      cases t with
      | empty =>
          simp only [add, isTerminal, Bool.false_eq_true, ite_false, Prod.mk.injEq] at hadd
          obtain ⟨h1, _⟩ := hadd
          subst h1
          exact ⟨.leaf p true, by simp [longest_prefix_fn], rfl, rfl⟩
      | leaf lc lit =>
          cases lit with
          | true => simp [add, isTerminal] at hadd
          | false =>
              simp only [add, isTerminal, Bool.false_eq_true, ite_false, Prod.mk.injEq] at hadd
              obtain ⟨h1, _⟩ := hadd
              subst h1
              exact ⟨.leaf p true, by simp [longest_prefix_fn], rfl, rfl⟩
      | node cc ch it =>
          cases it with
          | true => simp [add, isTerminal] at hadd
          | false =>
              simp only [add, isTerminal, Bool.false_eq_true, ite_false, Prod.mk.injEq] at hadd
              obtain ⟨h1, _⟩ := hadd
              subst h1
              exact ⟨.node p ch true, by simp [longest_prefix_fn], rfl, rfl⟩
  | cons c rest ih =>
      intro t p t' hadd acc lt
      cases t with
      | empty =>
          rcases hx : add (TNode.empty : TNode T) rest p with ⟨x1, x2⟩
          rw [add, hx] at hadd
          simp only [Prod.mk.injEq] at hadd
          obtain ⟨h1, h2⟩ := hadd
          subst h1
          subst h2
          simp only [longest_prefix_fn, lookupA_insertA_self]
          exact ih .empty p x1 hx _ _
      | leaf lc lit =>
          rcases hx : add (TNode.empty : TNode T) rest p with ⟨x1, x2⟩
          rw [add, hx] at hadd
          simp only [Prod.mk.injEq] at hadd
          obtain ⟨h1, h2⟩ := hadd
          subst h1
          subst h2
          simp only [longest_prefix_fn, lookupA_insertA_self]
          exact ih .empty p x1 hx _ _
      | node cc ch it =>
          rcases hx : add ((lookupA c ch).getD .empty) rest p with ⟨x1, x2⟩
          rw [add, hx] at hadd
          simp only [Prod.mk.injEq] at hadd
          obtain ⟨h1, h2⟩ := hadd
          subst h1
          subst h2
          simp only [longest_prefix_fn, lookupA_insertA_self]
          exact ih _ p x1 hx _ _

theorem add_twice_lemma {T : Type} :
    ∀ (k : List Char) (t : TNode T) (p q : Option T) (t' : TNode T),
      add t k p = (t', true) → add t' k q = (t', false) := by
  intro k
  induction k with
  | nil =>
      intro t p q t' hadd
      cases t with
      | empty =>
          simp only [add, isTerminal, Bool.false_eq_true, ite_false, Prod.mk.injEq] at hadd
          obtain ⟨h1, _⟩ := hadd
          subst h1
          simp [add, isTerminal]
      | leaf lc lit =>
          cases lit with
          | true => simp [add, isTerminal] at hadd
          | false =>
              simp only [add, isTerminal, Bool.false_eq_true, ite_false, Prod.mk.injEq] at hadd
              obtain ⟨h1, _⟩ := hadd
              subst h1
              simp [add, isTerminal]
      | node cc ch it =>
          cases it with
          | true => simp [add, isTerminal] at hadd
          | false =>
              simp only [add, isTerminal, Bool.false_eq_true, ite_false, Prod.mk.injEq] at hadd
              obtain ⟨h1, _⟩ := hadd
              subst h1
              simp [add, isTerminal]
  | cons c rest ih =>
      intro t p q t' hadd
      cases t with
      | empty =>
          rcases hx : add (TNode.empty : TNode T) rest p with ⟨x1, x2⟩
          rw [add, hx] at hadd
          simp only [Prod.mk.injEq] at hadd
          obtain ⟨h1, h2⟩ := hadd
          subst h1
          subst h2
          have hrec := ih .empty p q x1 hx
          rw [add]
          simp only [lookupA_insertA_self, Option.getD_some, hrec, insertA_insertA]
      | leaf lc lit =>
          rcases hx : add (TNode.empty : TNode T) rest p with ⟨x1, x2⟩
          rw [add, hx] at hadd
          simp only [Prod.mk.injEq] at hadd
          obtain ⟨h1, h2⟩ := hadd
          subst h1
          subst h2
          have hrec := ih .empty p q x1 hx
          rw [add]
          simp only [lookupA_insertA_self, Option.getD_some, hrec, insertA_insertA]
      | node cc ch it =>
          rcases hx : add ((lookupA c ch).getD .empty) rest p with ⟨x1, x2⟩
          rw [add, hx] at hadd
          simp only [Prod.mk.injEq] at hadd
          obtain ⟨h1, h2⟩ := hadd
          subst h1
          subst h2
          have hrec := ih _ p q x1 hx
          rw [add]
          simp only [lookupA_insertA_self, Option.getD_some, hrec, insertA_insertA]

theorem contentOf_of_not_empty {T : Type} (n : TNode T) (h : isEmptyNode n = false) :
    (contentOf n).isSome = true := by
  cases n <;> simp_all [isEmptyNode, contentOf]

/-! ### The claims -/

/-- C1: evaluation of the code at the failing input. On the trie
`{"ab" → 1, "abc" → 2}`, `remove("ab", false)` returns `true`, but
afterwards the extension `"abc"` — which the claim says must remain
found — is gone (the demotion of the node at `"ab"` spuriously reports
`bubble_up = true`, so the parent deletes the whole branch under `'a'`). -/
theorem c1_eval :
    removeOk trieAB_ABC "ab".toList false = some true
    ∧ contains_key trieAB_ABC "abc".toList = true
    ∧ contains_key trieAB_ABC "ab".toList = true
    ∧ contains_key (afterRemove trieAB_ABC "ab".toList false) "abc".toList = false
    ∧ contains_key (afterRemove trieAB_ABC "ab".toList false) "ab".toList = false := by
  decide

/-- C2: evaluation of the code at the failing input. On the trie
`{"ab" → 1, "ac" → 2}`, `remove("ab", false)` returns `true`, but the
sibling `"ac"` — which neither equals `"ab"` nor extends it — is lost:
`bubble_up` is reported whenever the parent is non-terminal, without
checking that it became childless, so the parent node of `"ab"` is
removed together with the sibling `"ac"` routed through it. -/
theorem c2_eval :
    removeOk trieAB_AC "ab".toList false = some true
    ∧ contains_key trieAB_AC "ac".toList = true
    ∧ contains_key (afterRemove trieAB_AC "ab".toList false) "ac".toList = false := by
  decide

/-- C3, counterexample: on the trie `{"a" → 1, "abc" → 2}`,
`contains_key("ab")` is `true` even though the exact node reached by
`"ab"` is non-terminal — `find` with `must_be_terminal = true` fell back
to the terminal ancestor `"a"` at key exhaustion, refuting the claim that
a terminal node must exist for exactly the key. -/
theorem c3_counterexample :
    contains_key trieA_ABC "ab".toList = true
    ∧ (walkTo trieA_ABC "ab".toList).map isTerminal = some false := by
  decide

/-- C3, amended: `contains_key(k)` is `true` iff walking `k` consumes the
entire key, lands on a non-`Empty` node, and some node on the walked path
(the exact node or any ancestor, the root included) is terminal; when the
exact node is non-terminal the result falls back to the last terminal
node remembered along the path. -/
theorem c3_amended {T : Type} (t : TNode T) (k : List Char) :
    contains_key t k = (walkNE t k && pathHasTerminal t k) := by
  have h := lpf_isSome k t [] ⟨none, []⟩
  simpa [contains_key, find] using h

/-- C4, counterexample: on the trie `{"a" → 1, "abc" → 2}` the query
`"abx"` with `must_be_terminal = true` stops at the missing child `'x'`
below the non-terminal node `"ab"`, yet `longest_prefix` returns `"ab"`
itself instead of falling back to the remembered terminal prefix `"a"` —
the missing-child fallback ignores the terminal constraint, unlike the
key-exhaustion fallback. -/
theorem c4_counterexample :
    longestPrefix trieA_ABC "abx".toList true = "ab".toList
    ∧ (walkTo trieA_ABC "ab".toList).map isTerminal = some false
    ∧ (walkTo trieA_ABC "a".toList).map isTerminal = some true := by
  decide

/-- C4, amended: in `longest_prefix_fn` with `must_match_fully = false`,
when the next code point has no matching child at a `Branch`, the result
is the current node with the accumulated prefix unconditionally —
regardless of `must_be_terminal` and of the current node's terminal flag,
and never the remembered last-terminal candidate; when the key is not yet
exhausted at a `Leaf` (which has no children), the result is empty
instead. -/
theorem c4_amended {T : Type} (cc : Option T) (ch : List (Char × TNode T)) (it : Bool)
    (c : Char) (r acc : List Char) (lt : FindResults T) (mbt : Bool)
    (h : lookupA c ch = none) :
    longest_prefix_fn (.node cc ch it) (c :: r) acc lt ⟨mbt, false⟩
        = ⟨some (.node cc ch it), acc⟩
    ∧ ∀ (lc : Option T) (lit : Bool),
        longest_prefix_fn (.leaf lc lit) (c :: r) acc lt ⟨mbt, false⟩ = ⟨none, []⟩ := by
  constructor
  · simp [longest_prefix_fn, h]
  · intro lc lit
    simp [longest_prefix_fn]

/-- C4, witness for the amended theorem at a concrete input. -/
theorem c4_amended_witness :
    lookupA 'b' ([('c', TNode.leaf (some 2) true)] : List (Char × TNode Nat)) = none
    ∧ (longest_prefix_fn (TNode.node (some 1) [('c', TNode.leaf (some 2) true)] false)
          ['b'] ['a'] ⟨none, []⟩ ⟨true, false⟩
        = ⟨some (TNode.node (some 1) [('c', TNode.leaf (some 2) true)] false), ['a']⟩
      ∧ ∀ (lc : Option Nat) (lit : Bool),
          longest_prefix_fn (TNode.leaf lc lit) ['b'] ['a'] ⟨none, []⟩ ⟨true, false⟩
            = ⟨none, []⟩) :=
  ⟨rfl, c4_amended (some 1) [('c', TNode.leaf (some 2) true)] false 'b' [] ['a']
    ⟨none, []⟩ true rfl⟩

/-- C5: insert/lookup round-trip. Whenever `add t k p` succeeds, `find`
on the new trie with `must_be_terminal = true` returns a node whose
payload is exactly `p`. -/
theorem c5_roundtrip {T : Type} (k : List Char) (t : TNode T) (p : Option T) (t' : TNode T)
    (h : add t k p = (t', true)) :
    ∃ n, find t' k true = some n ∧ contentOf n = some p := by
  obtain ⟨n, h1, h2, _⟩ := add_find_lemma k t p t' h [] ⟨none, []⟩
  exact ⟨n, by simpa [find] using h1, h2⟩

/-- C5, witness at a concrete input. -/
theorem c5_roundtrip_witness :
    add (TNode.empty : TNode Nat) ['a'] (some 1)
        = (TNode.node none [('a', TNode.leaf (some 1) true)] false, true)
    ∧ ∃ n, find (TNode.node none [('a', TNode.leaf (some 1) true)] false) ['a'] true = some n
        ∧ contentOf n = some (some 1) :=
  ⟨rfl, c5_roundtrip ['a'] .empty (some 1) _ rfl⟩

/-- C6: duplicate rejection. Whenever `add t k p` succeeds, a following
`add` of the same key fails (`KeyExists`, the `false` flag) whatever the
new payload is, and the trie — the existing entry included — is left
completely unchanged. -/
theorem c6_duplicate_rejected {T : Type} (k : List Char) (t : TNode T) (p q : Option T)
    (t' : TNode T) (h : add t k p = (t', true)) :
    add t' k q = (t', false) :=
  add_twice_lemma k t p q t' h

/-- C6, witness at a concrete input. -/
theorem c6_duplicate_rejected_witness :
    add (TNode.empty : TNode Nat) ['a'] (some 1)
        = (TNode.node none [('a', TNode.leaf (some 1) true)] false, true)
    ∧ add (TNode.node none [('a', TNode.leaf (some 1) true)] false) ['a'] (some 2)
        = (TNode.node none [('a', TNode.leaf (some 1) true)] false, false) :=
  ⟨rfl, c6_duplicate_rejected ['a'] .empty (some 1) (some 2) _ rfl⟩

/-- C7, counterexample: inserting `"a"` into the empty trie and then
removing it leaves the root as a `Branch` (`Node`) with zero children —
the top-level `remove` never compacts the root, refuting the claim that
no childless `Branch` exists anywhere, the root included. -/
theorem c7_counterexample :
    run [Op.ins "a".toList (some 1), Op.del 'a' [] false]
        = TNode.node (none : Option Nat) [] false
    ∧ goodB (run [Op.ins "a".toList (some 1), Op.del 'a' [] false]) = false := by
  constructor <;> rfl

/-- C7, amended: after any sequence of insertions and removals (removals
with non-empty keys) starting from the empty trie, no `Branch` strictly
below the root has zero children; only the root itself may be left as a
childless `Branch`, because `remove` compacts emptied children but never
the root. -/
theorem c7_amended {T : Type} (ops : List (Op T)) : belowGood (run ops) = true :=
  (bandE (run_rootInv ops)).2

/-- C8, counterexample: the render of `{"a" → 1, "abc" → 2, "d" → 3,
"e" → 4}` with `show_content = true` is not the string claimed by the
spec: a terminal `Branch` (the node of `"a"`, which has the child `"bc"`)
never renders its payload, so no `"  (1)"` appears after `a`. -/
theorem c8_counterexample :
    (pp (fun n => toString n) trieC8 true == "a  (1)\n bc  (2)\nd  (3)\ne  (4)\n") = false := by
  decide

/-- C8, amended: the render of `{"a" → 1, "abc" → 2, "d" → 3, "e" → 4}`
with `show_content = true` is exactly `"a\n bc  (2)\nd  (3)\ne  (4)\n"`
(matching the repository's own `show_content` test): only `Leaf` payloads
are printed, a terminal `Branch` contributes its key character only. -/
theorem c8_amended :
    pp (fun n => toString n) trieC8 true = "a\n bc  (2)\nd  (3)\ne  (4)\n" := by
  decide

/-- C9: evaluation of the code at the failing input. For every trie state
and either value of `remove_subtree`, `remove` with the empty key panics
(`str_left.chars().next().unwrap()` on an empty string, embedded as
`none`) instead of returning `false` as the claim requires. -/
theorem c9_empty_key_panics {T : Type} (t : TNode T) (sub : Bool) :
    remove_fn t [] sub = none := by
  cases t <;> rfl

/-- C10: in every trie reachable from `Empty` by the public operations
(insertions, and removals with non-empty keys), no children map contains
an `Empty` node; consequently `remove_fn` on a non-empty key never
reaches its `Empty`-child panic, and `find` never returns an `Empty`
node, so `content()` on a node obtained from `find` never reaches its
`Empty` panic. -/
theorem c10_invariants {T : Type} (ops : List (Op T)) (c : Char) (r : List Char)
    (sub : Bool) (k : List Char) :
    noEmptyChild (run ops) = true
    ∧ (remove_fn (run ops) (c :: r) sub).isSome = true
    ∧ ((find (run ops) k true).all fun n => !isEmptyNode n && (contentOf n).isSome) = true := by
  have hri := run_rootInv ops
  have hne : noEmptyChild (run ops) = true := (bandE (bandE hri).1).2
  refine ⟨hne, remove_no_panic r (run ops) c sub hne, ?_⟩
  have hsafe := lpf_no_empty k (run ops) [] ⟨none, []⟩ ⟨true, true⟩ (by simp)
  simp only [find]
  cases hf : (longest_prefix_fn (run ops) k [] ⟨none, []⟩ ⟨true, true⟩).node with
  | none => simp
  | some n =>
      rw [hf] at hsafe
      simp only [Option.all] at hsafe ⊢
      have hn : isEmptyNode n = false := by simpa using hsafe
      simp [hn, contentOf_of_not_empty n hn]

end TrieG
